import Mathlib

/-!
Verification of the orchestration pipeline of the `juju bundle` plugin
(`src/plugins/src/juju_bundle.rs`): application/relation selection,
the charm-resolution decision policy, the parallel build fan-out for
deploy, the publish pipeline, the two-phase promotion workflow, and the
remove loop.

Modelling conventions:
- `CharmURL` is modelled as its string rendering; `CharmURL::from_path`
  and `revision.parse()` are kept opaque as the identity on strings.
- Maps (`HashMap`) are modelled as association lists with first-match
  lookup; sets as lists with membership.
- External collaborators (bundle loading, charm building, store calls,
  subprocess spawning) are injected as record fields of an environment;
  each call is recorded as an event in a trace, so that statements such
  as "no build occurs" or "phase 2 runs only after phase 1" are about
  the emitted trace.
- `Result<T, Error>` is `Except String`; a Rust `expect`/panic in the
  publish flow is a distinguished `PubErr.panic` error value.
-/

set_option autoImplicit false

namespace JujuBundle

/-- First-match lookup on an association list, the model of `HashMap` keyed
access (keys are unique in every map produced by the program). -/
def assocLookup {α : Type} : List (String × α) → String → Option α
  | [], _ => none
  | p :: rest, k => if p.1 = k then some p.2 else assocLookup rest k

/-- Boolean membership of a string in a list of names, the model of
`HashSet`/key-set membership. -/
def elemStr : List String → String → Bool
  | [], _ => false
  | x :: rest, s => if x = s then true else elemStr rest s

/-- One application of a bundle: an optional charm reference (`charm`), an
optional source locator (`source`), and the resource-name to
upstream-source mapping (`resources`). -/
structure Application where
  charm : Option String
  source : Option String
  resources : List (String × String)
deriving DecidableEq

/-- One declared resource of a charm: its optional upstream source. -/
structure Resource where
  upstream_source : Option String
deriving DecidableEq

/-- The metadata of a loaded charm source: its name and declared resources. -/
structure CharmMetadata where
  name : String
  resources : List (String × Resource)
deriving DecidableEq

/-- A loaded charm source directory. -/
structure CharmSource where
  metadata : CharmMetadata
deriving DecidableEq

/-- A loaded bundle: its name-keyed applications and its relations, each
relation a list of endpoint descriptors. -/
structure Bundle where
  applications : List (String × Application)
  relations : List (List String)
deriving DecidableEq

/-- A release channel, compared only for identity. -/
inductive Channel where
  | edge
  | beta
  | candidate
  | stable
deriving DecidableEq

/-! ## A trace-collecting result monad

`TraceM ε ev α` threads the list of external calls made so far and either
produces a value or stops at the first error, exactly like `?` in the
source: once a step fails, no later step runs, but the calls already made
stay in the trace. -/

/-- Computations that append external-call events and fail fast. -/
abbrev TraceM (ε ev α : Type) : Type := List ev → List ev × Except ε α

/-- Return a pure value, no external call. -/
def tPure {ε ev α : Type} (a : α) : TraceM ε ev α := fun t => (t, Except.ok a)

/-- Sequencing: on error the continuation never runs (the `?` operator). -/
def tBind {ε ev α β : Type} (m : TraceM ε ev α) (f : α → TraceM ε ev β) :
    TraceM ε ev β := fun t =>
  match m t with
  | (t2, Except.ok a) => f a t2
  | (t2, Except.error e) => (t2, Except.error e)

/-- Record one external call and adopt its outcome. -/
def tCall {ε ev α : Type} (e : ev) (r : Except ε α) : TraceM ε ev α :=
  fun t => (t ++ [e], r)

/-- Fail without any external call. -/
def tFail {ε ev α : Type} (e : ε) : TraceM ε ev α :=
  fun t => (t, Except.error e)

/-- Lift an effect-free result into the trace monad. -/
def tOfExcept {ε ev α : Type} (r : Except ε α) : TraceM ε ev α :=
  fun t => (t, r)

/-- Sequential effectful map, the model of `iter().map(f).collect::<Result<_,_>>()`. -/
def tMapM {ε ev α β : Type} (f : α → TraceM ε ev β) :
    List α → TraceM ε ev (List β)
  | [] => tPure []
  | a :: rest =>
    tBind (f a) (fun b => tBind (tMapM f rest) (fun bs => tPure (b :: bs)))

/-! ## Path resolution helpers (external `std::path` behaviour) -/

/-- `PathBuf::join`. -/
def joinPath (a b : String) : String := a ++ "/" ++ b

/-- `PathBuf::parent` of a file path: drop the last `/`-separated component. -/
def parentDir (p : String) : String :=
  String.intercalate "/" (p.splitOn "/").dropLast

/-- `CharmURL::from_path`, kept opaque: the URL is rendered as the path. -/
def charmURLFromPath (p : String) : String := p

/-! ## Relation filtering (deploy, lines 152-163) -/

/-- The characters of a string before the first `:`. -/
def takeUntilColon : List Char → List Char
  | [] => []
  | c :: rest => if c = ':' then [] else c :: takeUntilColon rest

/-- `r.split(':').next().unwrap()`: the endpoint application name with any
interface suffix stripped at the first `:` (the whole string when it has
no `:`). -/
def stripInterface (s : String) : String := String.mk (takeUntilColon s.data)

/-- `source.starts_with('.')`: whether the first character is `.`. -/
def startsWithDot (s : String) : Bool := s.data.head? = some '.'

/-- The relation filter applied after app selection: a relation is kept iff
the set of its endpoints, interface suffixes stripped, is a subset of the
selected application names. -/
def filterRelations (relations : List (List String)) (selected : List String) :
    List (List String) :=
  relations.filter (fun rels => rels.all (fun r => elemStr selected (stripInterface r)))

/-! ## Charm resolution (deploy, lines 165-214) -/

/-- External calls made by per-application charm resolution. -/
inductive DeployEvent where
  | loadCharm (path : String)
  | buildCharm (appName : String)
deriving DecidableEq

/-- The external collaborators used by the deploy resolution step. -/
structure DeployEnv where
  charmBuildDir : String
  charmSourceDir : String
  loadCharm : String → Except String CharmSource
  buildCharm : CharmSource → String → Except String Unit

/-- `entry(name).or_insert(source)`: insert only when the key is absent. -/
def orInsert (m : List (String × String)) (k v : String) : List (String × String) :=
  if (assocLookup m k).isSome then m else m ++ [(k, v)]

/-- The resource-merge loop (lines 202-206): each built resource with an
upstream source is inserted into the application resources only if that
resource name is not already present. -/
def mergeResources (appRes : List (String × String))
    (built : List (String × Resource)) : List (String × String) :=
  built.foldl
    (fun m p =>
      match p.2.upstream_source with
      | some s => orInsert m p.1 s
      | none => m)
    appRes

/-- Source-locator resolution: a locator starting with `.` is relative to
the bundle manifest directory, anything else lives under the charm source
directory. -/
def charmPath (sourceDir bundlePath source : String) : String :=
  if startsWithDot source then joinPath (parentDir bundlePath) source
  else joinPath sourceDir source

/-- The build arm of the resolution match (lines 185-209): resolve the
source path, load the charm source, build it, merge resources, and point
`charm` at the build directory. -/
def buildBranch (env : DeployEnv) (bundlePath name : String)
    (app : Application) (source : String) : TraceM String DeployEvent Application :=
  tBind
    (tCall (DeployEvent.loadCharm (charmPath env.charmSourceDir bundlePath source))
      (env.loadCharm (charmPath env.charmSourceDir bundlePath source)))
    (fun charm =>
      tBind (tCall (DeployEvent.buildCharm name) (env.buildCharm charm name))
        (fun _ =>
          tPure { app with
            charm := some (charmURLFromPath (joinPath env.charmBuildDir charm.metadata.name)),
            resources := mergeResources app.resources charm.metadata.resources }))

/-- The charm-resolution decision (lines 170-210): the `match` over
`(c.build, application.charm, application.source)`, arms in source order. -/
def resolveApp (env : DeployEnv) (bundlePath : String) (build : Bool)
    (name : String) (app : Application) : TraceM String DeployEvent Application :=
  match build, app.charm, app.source with
  | false, some c, _ => tPure { app with charm := some c }
  | _, some c, none => tPure { app with charm := some c }
  | _, none, none =>
    tFail ("Application " ++ name ++ " has neither `charm` nor `source` set.")
  | true, _, some s => buildBranch env bundlePath name app s
  | _, none, some s => buildBranch env bundlePath name app s

/-! ## Publish eligibility (publish, lines 297-307) -/

/-- The publish filter: keep exactly the applications that have both a
charm reference and a source locator. -/
def publishEligible (apps : List (String × Application)) :
    List (String × Application) :=
  apps.filterMap (fun p =>
    if p.2.charm.isSome && p.2.source.isSome then some p else none)

/-! ## Parallel fan-out (deploy, lines 165-216) -/

/-- One parallel resolution task of the deploy fan-out: it owns its own
application data and its own trace, and tags its result with the
application name, preparing the name-keyed merged map. -/
def runTask (env : DeployEnv) (bundlePath : String) (B : Bool)
    (p : String × Application) : Except String (String × Application) :=
  match resolveApp env bundlePath B p.1 p.2 [] with
  | (_, Except.ok a) => Except.ok (p.1, a)
  | (_, Except.error e) => Except.error e

/-- The fan-out merge: every selected application is dispatched, the
per-name results are collected into the name-keyed result map, and the
whole operation fails when any task failed. -/
def resolveAll (env : DeployEnv) (bundlePath : String) (B : Bool) :
    List (String × Application) → Except String (List (String × Application))
  | [] => Except.ok []
  | p :: rest =>
    match runTask env bundlePath B p with
    | Except.error e => Except.error e
    | Except.ok r =>
      match resolveAll env bundlePath B rest with
      | Except.error e => Except.error e
      | Except.ok rs => Except.ok (r :: rs)

/-! ## Remove loop (remove, lines 269-278) -/

/-- The outcome of `Command::spawn()?.wait()?` for one external removal:
either an I/O failure of spawn or wait, which `?` propagates, or an exit
status, whose value the remove loop never inspects. -/
inductive SpawnOutcome where
  | ioError (msg : String)
  | exited (code : Int)
deriving DecidableEq

/-- True when the spawned command ran to an exit status of any value. -/
def SpawnOutcome.isExit : SpawnOutcome → Bool
  | SpawnOutcome.ioError _ => false
  | SpawnOutcome.exited _ => true

/-- The remove loop (lines 271-276): for each selected application name in
order, spawn `juju remove-application <name>` and wait on it. The first
component records which names were actually invoked. The `?` operator
propagates only I/O errors of spawn/wait; the exit status is dropped. -/
def removeApps (runRemove : String → SpawnOutcome) :
    List String → List String × Except String Unit
  | [] => ([], Except.ok ())
  | n :: rest =>
    match runRemove n with
    | SpawnOutcome.ioError m => ([n], Except.error m)
    | SpawnOutcome.exited _ =>
      let r := removeApps runRemove rest
      (n :: r.1, r.2)

/-! ## Publish pipeline (publish, lines 281-390) -/

/-- Errors of the publish flow: a Rust panic from a failed `expect` is
kept distinct from an ordinary propagated error. -/
inductive PubErr where
  | panic (msg : String)
  | fail (msg : String)
deriving DecidableEq

/-- External calls made by the publish flow. -/
inductive PubEvent where
  | loadBundle (path : String)
  | login
  | loadCharm (path : String)
  | build (appName : String)
  | push (appName : String)
  | promoteRev (revUrl : String)
  | pruneDocker
  | saveBundle
  | copyReadme
  | pushBundle
  | releaseBundle (url : String)
deriving DecidableEq

/-- Lift an external call result: its error is an ordinary failure, never
a panic. -/
def liftE {α : Type} : Except String α → Except PubErr α
  | Except.ok a => Except.ok a
  | Except.error e => Except.error (PubErr.fail e)

/-- `Option::expect`: the value, or a panic carrying the given message. -/
def expectE {α : Type} (o : Option α) (msg : String) : Except PubErr α :=
  match o with
  | some a => Except.ok a
  | none => Except.error (PubErr.panic msg)

/-- The external collaborators of the publish flow. -/
structure PublishEnv where
  charmSourceDir : String
  loadBundle : String → Except String Bundle
  login : Except String Unit
  loadCharm : String → Except String CharmSource
  buildCharm : CharmSource → String → Except String Unit
  pushCharm : CharmSource → String → List (String × String) → Except String String
  promoteCharm : CharmSource → String → Except String Unit
  pruneDocker : Except String Unit
  saveBundle : Bundle → Except String Unit
  copyReadme : Except String Unit
  pushBundle : Bundle → String → Except String String
  releaseBundle : Bundle → String → Except String Unit

/-- The `publish` CLI configuration. -/
structure PublishConfig where
  bundle : String
  cs_url : String
  serial : Bool
  prune : Bool

/-- The per-application publish closure (lines 319-351): extract the
source locator and the charm store URL, both asserted present; resolve
the source path; load and build the charm; push it to the store,
obtaining a revision URL; promote that revision to edge; prune docker
when requested; and return `(name, revision URL)`. -/
def publishHandlerM (env : PublishEnv) (path : String) (prune : Bool)
    (p : String × Application) : TraceM PubErr PubEvent (String × String) :=
  tBind (tOfExcept (expectE p.2.source "Already asserted this must exist!"))
    (fun source =>
  tBind (tOfExcept (expectE p.2.charm "Already asserted this must exist!"))
    (fun cs_url =>
  tBind (tCall (PubEvent.loadCharm (charmPath env.charmSourceDir path source))
      (liftE (env.loadCharm (charmPath env.charmSourceDir path source))))
    (fun charm =>
  tBind (tCall (PubEvent.build p.1) (liftE (env.buildCharm charm p.1)))
    (fun _ =>
  tBind (tCall (PubEvent.push p.1) (liftE (env.pushCharm charm cs_url p.2.resources)))
    (fun rev_url =>
  tBind (tCall (PubEvent.promoteRev rev_url) (liftE (env.promoteCharm charm rev_url)))
    (fun _ =>
  tBind (if prune then tCall PubEvent.pruneDocker (liftE env.pruneDocker) else tPure ())
    (fun _ =>
  tPure (p.1, rev_url))))))))

/-- Collect parallel task outcomes: the list of values, or one of the
encountered errors when any task failed. -/
def collectResults {ε β : Type} : List (Except ε β) → Except ε (List β)
  | [] => Except.ok []
  | Except.ok b :: rest => (collectResults rest).map (fun bs => b :: bs)
  | Except.error e :: _ => Except.error e

/-- The parallel fan-out of the publish flow: every task runs to
completion with its own trace regardless of sibling failures; the traces
are appended and the outcomes collected. -/
def parCollect {ε ev α β : Type} (f : α → List ev × Except ε β) (l : List α) :
    TraceM ε ev (List β) := fun t =>
  (t ++ (l.map (fun a => (f a).1)).flatten, collectResults (l.map (fun a => (f a).2)))

/-- Replace the charm of the named application, the `get_mut` assignment
of the pinning loop. -/
def setCharm (name rev : String) :
    List (String × Application) → List (String × Application)
  | [] => []
  | p :: rest =>
    (if p.1 = name then (p.1, { p.2 with charm := some rev }) else p) ::
      setCharm name rev rest

/-- The revision-pinning loop (lines 366-372): for each `(name, revision)`
pair, look the name up in the derived bundle copy - a missing key is the
`App must exist!` panic - and pin the revision as that application's
charm. -/
def pinRevisions (apps : List (String × Application)) :
    List (String × String) → Except PubErr (List (String × Application))
  | [] => Except.ok apps
  | (name, rev) :: rest =>
    if (assocLookup apps name).isSome then
      pinRevisions (setCharm name rev apps) rest
    else Except.error (PubErr.panic "App must exist!")

/-- The `publish` subcommand (lines 281-390): validate the prune/serial
combination before any work, load the bundle, log in to the store, filter
to the publish-eligible applications, build+push+promote each serially or
in parallel, pin the returned revisions into a derived bundle copy, save
that copy together with the documentation file, push it as the bundle
artifact, and release the result to edge. -/
def publishModel (env : PublishEnv) (c : PublishConfig) :
    List PubEvent × Except PubErr Unit :=
  if c.prune && !c.serial then
    ([], Except.error (PubErr.fail "To use --prune, you must set the --serial flag as well."))
  else
    (tBind (tCall (PubEvent.loadBundle c.bundle) (liftE (env.loadBundle c.bundle)))
      (fun bundle =>
     tBind (tCall PubEvent.login (liftE env.login))
      (fun _ =>
     tBind (if c.serial then
              tMapM (publishHandlerM env c.bundle c.prune)
                (publishEligible bundle.applications)
            else
              parCollect (fun p => publishHandlerM env c.bundle c.prune p [])
                (publishEligible bundle.applications))
      (fun revisions =>
     tBind (tOfExcept (pinRevisions bundle.applications revisions))
      (fun pinned =>
     tBind (tCall PubEvent.saveBundle
        (liftE (env.saveBundle { bundle with applications := pinned })))
      (fun _ =>
     tBind (tCall PubEvent.copyReadme (liftE env.copyReadme))
      (fun _ =>
     tBind (tCall PubEvent.pushBundle (liftE (env.pushBundle bundle c.cs_url)))
      (fun bundle_url =>
     tCall (PubEvent.releaseBundle bundle_url)
        (liftE (env.releaseBundle bundle bundle_url)))))))))) []

/-- No run of the computation produces a panic error. -/
def NoPanic {ev α : Type} (m : TraceM PubErr ev α) : Prop :=
  ∀ t t2 e, m t = (t2, Except.error e) → ∀ s, e ≠ PubErr.panic s

/-- Every successful run of the computation satisfies `P`. -/
def OkSat {ε ev α : Type} (P : α → Prop) (m : TraceM ε ev α) : Prop :=
  ∀ t t2 a, m t = (t2, Except.ok a) → P a

/-! ## Promotion pipeline (promote, lines 393-411) -/

/-- External calls made by the promotion flow. -/
inductive PromEvent where
  | appRelease (name : String) (toCh : Channel)
  | bundleRelease (url : String) (toCh : Channel)
deriving DecidableEq

/-- The external collaborators of the promotion flow. -/
structure PromoteEnv where
  loadFromStore : String → Channel → Except String (String × Bundle)
  releaseApp : Application → Channel → Except String Unit
  releaseBundle : Bundle → String → Channel → Except String Unit

/-- The `promote` CLI configuration. -/
structure PromoteConfig where
  bundle : String
  from_ : Channel
  toCh : Channel
  excluded : List String

/-- Phase 1 (lines 398-404): for each application of the loaded bundle,
skip it when it is in the exclusion list or has no source locator,
otherwise release it to the target channel; the first failure stops the
loop. -/
def promoteLoop (env : PromoteEnv) (excluded : List String) (toCh : Channel) :
    List (String × Application) → TraceM String PromEvent Unit
  | [] => tPure ()
  | p :: rest =>
    if elemStr excluded p.1 || p.2.source.isNone then
      promoteLoop env excluded toCh rest
    else
      tBind (tCall (PromEvent.appRelease p.1 toCh) (env.releaseApp p.2 toCh))
        (fun _ => promoteLoop env excluded toCh rest)

/-- The `promote` subcommand (lines 393-411): load the bundle and its
discovered revision from the store at the from-channel, run phase 1 over
its applications, then promote the bundle itself, identified as
`<bundle-name>-<revision>`, to the target channel. -/
def promoteModel (env : PromoteEnv) (c : PromoteConfig) :
    List PromEvent × Except String Unit :=
  tBind (tOfExcept (env.loadFromStore c.bundle c.from_))
    (fun rb =>
      tBind (promoteLoop env c.excluded c.toCh rb.2.applications)
        (fun _ =>
          tCall (PromEvent.bundleRelease (c.bundle ++ "-" ++ rb.1) c.toCh)
            (env.releaseBundle rb.2 (c.bundle ++ "-" ++ rb.1) c.toCh)))
    []

/-! ## Concrete instances used by the witnesses -/

/-- A concrete charm source whose built artifact declares upstream sources
for resources `X` and `Y`. -/
def charmW : CharmSource :=
  { metadata :=
    { name := "appc",
      resources :=
        [("X", { upstream_source := some "built" }),
         ("Y", { upstream_source := some "builtY" })] } }

/-- A concrete deploy environment where loading and building succeed. -/
def envW : DeployEnv :=
  { charmBuildDir := "/build", charmSourceDir := "/sources",
    loadCharm := fun _ => Except.ok charmW,
    buildCharm := fun _ _ => Except.ok () }

/-- A concrete application with a source locator, no charm reference, and
an explicitly declared value for resource `X`. -/
def appW : Application :=
  { charm := none, source := some "appc", resources := [("X", "explicit")] }

/-- The resolution of `appW` under `envW`: charm pinned to the build
directory, declared `X` kept, build-derived `Y` merged in. -/
def appResolvedW : Application :=
  { charm := some "/build/appc", source := some "appc",
    resources := [("X", "explicit"), ("Y", "builtY")] }

/-- A concrete removal runner: spawning succeeds with exit status 0 for
every name except `"b"`, where spawn itself fails. -/
def runRemW : String → SpawnOutcome :=
  fun n => if n = "b" then SpawnOutcome.ioError "boom" else SpawnOutcome.exited 0

/-- A concrete application with both a charm reference and a source
locator, hence publish-eligible. -/
def appBothW : Application :=
  { charm := some "cs:app", source := some "appc", resources := [] }

/-- A concrete publish environment where every external call succeeds. -/
def pubEnvW : PublishEnv :=
  { charmSourceDir := "/sources",
    loadBundle := fun _ =>
      Except.ok { applications := [("app", appBothW)], relations := [] },
    login := Except.ok (),
    loadCharm := fun _ => Except.ok charmW,
    buildCharm := fun _ _ => Except.ok (),
    pushCharm := fun _ _ _ => Except.ok "cs:app-42",
    promoteCharm := fun _ _ => Except.ok (),
    pruneDocker := Except.ok (),
    saveBundle := fun _ => Except.ok (),
    copyReadme := Except.ok (),
    pushBundle := fun _ _ => Except.ok "cs:bundle-7",
    releaseBundle := fun _ _ => Except.ok () }

/-- A concrete application with a source locator and no charm reference,
in scope for promotion. -/
def appSrcW : Application :=
  { charm := none, source := some "appc", resources := [] }

/-- The concrete bundle served by the promotion store double. -/
def promBundleW : Bundle :=
  { applications := [("web", appSrcW), ("db", appSrcW)], relations := [] }

/-- A concrete promotion environment where every external call succeeds
and the store serves `promBundleW` at revision `7`. -/
def promEnvW : PromoteEnv :=
  { loadFromStore := fun _ _ => Except.ok ("7", promBundleW),
    releaseApp := fun _ _ => Except.ok (),
    releaseBundle := fun _ _ _ => Except.ok () }

/-- A concrete promotion configuration excluding `"web"`. -/
def promCfgW : PromoteConfig :=
  { bundle := "mybundle", from_ := Channel.edge, toCh := Channel.stable,
    excluded := ["web"] }

/-! ## Shared helper lemmas -/

theorem assocLookup_append_of_some {α : Type} (m l : List (String × α))
    (k : String) (v : α) (h : assocLookup m k = some v) :
    assocLookup (m ++ l) k = some v := by
  induction m with
  | nil => simp [assocLookup] at h
  | cons p rest ih =>
    by_cases hp : p.1 = k
    · simp only [assocLookup, List.cons_append, if_pos hp] at h ⊢
      exact h
    · simp only [assocLookup, List.cons_append, if_neg hp] at h ⊢
      exact ih h

theorem assocLookup_orInsert_of_some (m : List (String × String))
    (k k2 v v2 : String) (h : assocLookup m k = some v) :
    assocLookup (orInsert m k2 v2) k = some v := by
  unfold orInsert
  by_cases hs : (assocLookup m k2).isSome = true
  · rw [if_pos hs]
    exact h
  · rw [if_neg hs]
    exact assocLookup_append_of_some m [(k2, v2)] k v h

theorem assocLookup_mergeResources_of_some (built : List (String × Resource)) :
    ∀ (res : List (String × String)) (k v : String),
      assocLookup res k = some v →
      assocLookup (mergeResources res built) k = some v := by
  induction built with
  | nil =>
    intro res k v h
    exact h
  | cons p rest ih =>
    intro res k v h
    cases hp : p.2.upstream_source with
    | none =>
      simp only [mergeResources, List.foldl_cons, hp]
      exact ih res k v h
    | some s =>
      simp only [mergeResources, List.foldl_cons, hp]
      exact ih (orInsert res p.1 s) k v
        (assocLookup_orInsert_of_some res k p.1 v s h)

theorem runTask_ok_fst (env : DeployEnv) (bundlePath : String) (B : Bool)
    (p : String × Application) (r : String × Application)
    (h : runTask env bundlePath B p = Except.ok r) : r.1 = p.1 := by
  unfold runTask at h
  rcases hres : resolveApp env bundlePath B p.1 p.2 [] with ⟨t2, res⟩
  rw [hres] at h
  cases res with
  | ok a =>
    cases h
    rfl
  | error e =>
    simp at h

theorem removeApps_all_exit (runRemove : String → SpawnOutcome)
    (names : List String) :
    (∀ n ∈ names, (runRemove n).isExit = true) →
    removeApps runRemove names = (names, Except.ok ()) := by
  induction names with
  | nil =>
    intro _
    rfl
  | cons x rest ih =>
    intro hall
    have hx := hall x (List.mem_cons_self x rest)
    cases hrx : runRemove x with
    | ioError m =>
      rw [hrx] at hx
      simp [SpawnOutcome.isExit] at hx
    | exited c =>
      have hrest := ih (fun n hn => hall n (List.mem_cons_of_mem x hn))
      simp [removeApps, hrx, hrest]

theorem removeApps_first_ioError (runRemove : String → SpawnOutcome)
    (pre : List String) (n : String) (post : List String) (m : String) :
    (∀ x ∈ pre, (runRemove x).isExit = true) →
    runRemove n = SpawnOutcome.ioError m →
    removeApps runRemove (pre ++ n :: post) = (pre ++ [n], Except.error m) := by
  induction pre with
  | nil =>
    intro _ hn
    simp [removeApps, hn]
  | cons x rest ih =>
    intro hall hn
    have hx := hall x (List.mem_cons_self x rest)
    cases hrx : runRemove x with
    | ioError m2 =>
      rw [hrx] at hx
      simp [SpawnOutcome.isExit] at hx
    | exited c =>
      have hrest := ih (fun y hy => hall y (List.mem_cons_of_mem x hy)) hn
      simp [removeApps, hrx, hrest]

theorem elemStr_eq_true_iff (l : List String) (s : String) :
    elemStr l s = true ↔ s ∈ l := by
  induction l with
  | nil => simp [elemStr]
  | cons x rest ih =>
    by_cases hx : x = s
    · subst hx
      simp [elemStr]
    · have hsx : ¬s = x := fun h => hx h.symm
      simp [elemStr, hx, ih, List.mem_cons, hsx]

theorem mem_publishEligible_iff (apps : List (String × Application))
    (p : String × Application) :
    p ∈ publishEligible apps ↔
      p ∈ apps ∧ p.2.charm.isSome ∧ p.2.source.isSome := by
  unfold publishEligible
  rw [List.mem_filterMap]
  constructor
  · rintro ⟨a, ha, hfa⟩
    by_cases hc : (a.2.charm.isSome && a.2.source.isSome) = true
    · rw [if_pos hc] at hfa
      cases hfa
      rw [Bool.and_eq_true] at hc
      exact ⟨ha, hc.1, hc.2⟩
    · rw [if_neg hc] at hfa
      exact absurd hfa (by simp)
  · rintro ⟨hp, hc, hs⟩
    refine ⟨p, hp, ?_⟩
    have hand : (p.2.charm.isSome && p.2.source.isSome) = true := by
      rw [Bool.and_eq_true]
      exact ⟨hc, hs⟩
    rw [if_pos hand]

theorem noPanic_tPure {ev α : Type} (a : α) :
    NoPanic (tPure a : TraceM PubErr ev α) := by
  intro t t2 e h s
  simp [tPure] at h

theorem noPanic_tOfExcept_ok {ev α : Type} (a : α) :
    NoPanic (tOfExcept (Except.ok a) : TraceM PubErr ev α) := by
  intro t t2 e h s
  simp [tOfExcept] at h

theorem noPanic_tCall_liftE {ev α : Type} (x : ev) (r : Except String α) :
    NoPanic (tCall x (liftE r)) := by
  intro t t2 e h s
  cases r with
  | ok a => simp [tCall, liftE] at h
  | error m =>
    simp only [tCall, liftE, Prod.mk.injEq] at h
    obtain ⟨-, he⟩ := h
    cases he
    simp

theorem noPanic_tBind {ev α β : Type} (m : TraceM PubErr ev α)
    (f : α → TraceM PubErr ev β) (hm : NoPanic m) (hf : ∀ a, NoPanic (f a)) :
    NoPanic (tBind m f) := by
  intro t t2 e h s
  unfold tBind at h
  rcases hmt : m t with ⟨t3, r⟩
  rw [hmt] at h
  cases r with
  | ok a => exact hf a t3 t2 e h s
  | error e2 =>
    simp only [Prod.mk.injEq] at h
    obtain ⟨-, he⟩ := h
    injection he with he2
    subst he2
    exact hm t t3 _ hmt s

theorem okSat_tPure {ε ev α : Type} (P : α → Prop) (a : α) (h : P a) :
    OkSat P (tPure a : TraceM ε ev α) := by
  intro t t2 b hb
  simp only [tPure, Prod.mk.injEq] at hb
  obtain ⟨-, hb2⟩ := hb
  cases hb2
  exact h

theorem okSat_tBind {ε ev α β : Type} (P : β → Prop) (m : TraceM ε ev α)
    (f : α → TraceM ε ev β) (hf : ∀ a, OkSat P (f a)) :
    OkSat P (tBind m f) := by
  intro t t2 b hb
  unfold tBind at hb
  rcases hmt : m t with ⟨t3, r⟩
  rw [hmt] at hb
  cases r with
  | ok a => exact hf a t3 t2 b hb
  | error e => simp at hb

theorem publishHandlerM_no_panic_aux (env : PublishEnv) (path : String)
    (prune : Bool) (p : String × Application)
    (hc : p.2.charm.isSome = true) (hs : p.2.source.isSome = true) :
    NoPanic (publishHandlerM env path prune p) := by
  obtain ⟨s0, hs2⟩ := Option.isSome_iff_exists.mp hs
  obtain ⟨c0, hc2⟩ := Option.isSome_iff_exists.mp hc
  unfold publishHandlerM
  rw [hs2, hc2]
  simp only [expectE]
  apply noPanic_tBind
  · exact noPanic_tOfExcept_ok s0
  intro source
  apply noPanic_tBind
  · exact noPanic_tOfExcept_ok c0
  intro cs_url
  apply noPanic_tBind
  · exact noPanic_tCall_liftE _ _
  intro charm
  apply noPanic_tBind
  · exact noPanic_tCall_liftE _ _
  intro u1
  apply noPanic_tBind
  · exact noPanic_tCall_liftE _ _
  intro rev_url
  apply noPanic_tBind
  · exact noPanic_tCall_liftE _ _
  intro u2
  apply noPanic_tBind
  · cases prune with
    | true =>
      rw [if_pos rfl]
      exact noPanic_tCall_liftE _ _
    | false =>
      rw [if_neg Bool.false_ne_true]
      exact noPanic_tPure ()
  intro u3
  exact noPanic_tPure (p.1, rev_url)

theorem publishHandlerM_ok_fst (env : PublishEnv) (path : String)
    (prune : Bool) (p : String × Application) :
    OkSat (fun r : String × String => r.1 = p.1) (publishHandlerM env path prune p) := by
  unfold publishHandlerM
  apply okSat_tBind
  intro source
  apply okSat_tBind
  intro cs_url
  apply okSat_tBind
  intro charm
  apply okSat_tBind
  intro u1
  apply okSat_tBind
  intro rev_url
  apply okSat_tBind
  intro u2
  apply okSat_tBind
  intro u3
  exact okSat_tPure _ _ rfl

theorem tMapM_handler_keys (env : PublishEnv) (path : String) (prune : Bool)
    (apps : List (String × Application)) :
    ∀ t t2 revs,
      tMapM (publishHandlerM env path prune) apps t = (t2, Except.ok revs) →
      revs.map Prod.fst = apps.map Prod.fst := by
  induction apps with
  | nil =>
    intro t t2 revs h
    simp only [tMapM, tPure, Prod.mk.injEq] at h
    obtain ⟨-, h2⟩ := h
    injection h2 with h3
    subst h3
    rfl
  | cons p rest ih =>
    intro t t2 revs h
    simp only [tMapM, tBind] at h
    rcases h1 : publishHandlerM env path prune p t with ⟨t3, r1⟩
    rw [h1] at h
    cases r1 with
    | error e => simp at h
    | ok b =>
      rcases h2 : tMapM (publishHandlerM env path prune) rest t3 with ⟨t4, r2⟩
      simp only [h2] at h
      cases r2 with
      | error e => simp at h
      | ok bs =>
        simp only [tPure, Prod.mk.injEq] at h
        obtain ⟨-, h3⟩ := h
        injection h3 with h4
        subst h4
        simp only [List.map_cons]
        rw [publishHandlerM_ok_fst env path prune p t t3 b h1, ih t3 t4 bs h2]

theorem parCollect_handler_keys (env : PublishEnv) (path : String)
    (prune : Bool) (apps : List (String × Application)) :
    ∀ revs,
      collectResults (apps.map (fun p => (publishHandlerM env path prune p []).2)) =
        Except.ok revs →
      revs.map Prod.fst = apps.map Prod.fst := by
  induction apps with
  | nil =>
    intro revs h
    simp only [List.map_nil, collectResults] at h
    injection h with h2
    subst h2
    rfl
  | cons p rest ih =>
    intro revs h
    simp only [List.map_cons] at h
    rcases h1 : (publishHandlerM env path prune p []) with ⟨t3, r1⟩
    rw [h1] at h
    cases r1 with
    | error e => simp [collectResults] at h
    | ok b =>
      simp only [collectResults] at h
      cases h2 : collectResults (rest.map (fun q => (publishHandlerM env path prune q []).2)) with
      | error e =>
        rw [h2] at h
        simp [Except.map] at h
      | ok bs =>
        rw [h2] at h
        simp only [Except.map] at h
        injection h with h3
        subst h3
        simp only [List.map_cons]
        have hb : b.1 = p.1 := by
          have := publishHandlerM_ok_fst env path prune p [] t3 b
          apply this
          rw [h1]
        rw [hb, ih bs h2]

theorem assocLookup_setCharm_isSome (n rev k : String)
    (apps : List (String × Application)) :
    (assocLookup (setCharm n rev apps) k).isSome = (assocLookup apps k).isSome := by
  induction apps with
  | nil => rfl
  | cons p rest ih =>
    by_cases hp : p.1 = n
    · by_cases hk : p.1 = k
      · subst hp
        subst hk
        simp [setCharm, assocLookup]
      · subst hp
        simp [setCharm, assocLookup, hk, ih]
    · by_cases hk : p.1 = k
      · subst hk
        simp [setCharm, assocLookup, hp]
      · simp [setCharm, assocLookup, hp, hk, ih]

theorem pinRevisions_ok (revs : List (String × String)) :
    ∀ apps : List (String × Application),
      (∀ r ∈ revs, (assocLookup apps r.1).isSome = true) →
      ∃ out, pinRevisions apps revs = Except.ok out := by
  induction revs with
  | nil =>
    intro apps _
    exact ⟨apps, rfl⟩
  | cons r rest ih =>
    intro apps hall
    have hr := hall r (List.mem_cons_self r rest)
    obtain ⟨name, rev⟩ := r
    simp only [pinRevisions]
    rw [if_pos hr]
    refine ih (setCharm name rev apps) (fun y hy => ?_)
    rw [assocLookup_setCharm_isSome]
    exact hall y (List.mem_cons_of_mem _ hy)

theorem assocLookup_isSome_of_mem {α : Type} (l : List (String × α))
    (p : String × α) (h : p ∈ l) : (assocLookup l p.1).isSome = true := by
  induction l with
  | nil => cases h
  | cons q rest ih =>
    rcases List.mem_cons.mp h with h1 | h2
    · subst h1
      simp [assocLookup]
    · by_cases hq : q.1 = p.1
      · simp [assocLookup, hq]
      · simp only [assocLookup, if_neg hq]
        exact ih h2

theorem revs_keys_lookup (apps revsApps : List (String × Application))
    (revs : List (String × String))
    (hkeys : revs.map Prod.fst = revsApps.map Prod.fst)
    (hsub : ∀ q ∈ revsApps, q ∈ apps) :
    ∀ r ∈ revs, (assocLookup apps r.1).isSome = true := by
  intro r hr
  have h1 : r.1 ∈ revs.map Prod.fst := List.mem_map_of_mem Prod.fst hr
  rw [hkeys] at h1
  obtain ⟨q, hq, hq1⟩ := List.mem_map.mp h1
  have := assocLookup_isSome_of_mem apps q (hsub q hq)
  rw [hq1] at this
  exact this

theorem promoteLoop_events (env : PromoteEnv) (excluded : List String)
    (toCh : Channel) (apps : List (String × Application)) :
    ∀ t, ∃ evs, (promoteLoop env excluded toCh apps t).1 = t ++ evs ∧
      ∀ e ∈ evs, ∃ n, e = PromEvent.appRelease n toCh := by
  induction apps with
  | nil =>
    intro t
    exact ⟨[], by simp [promoteLoop, tPure], by simp⟩
  | cons p rest ih =>
    intro t
    by_cases hp : (elemStr excluded p.1 || p.2.source.isNone) = true
    · simp only [promoteLoop, if_pos hp]
      exact ih t
    · simp only [promoteLoop, if_neg hp]
      unfold tBind tCall
      cases hr : env.releaseApp p.2 toCh with
      | error e =>
        refine ⟨[PromEvent.appRelease p.1 toCh], by simp [hr], ?_⟩
        intro e2 he2
        rcases List.mem_singleton.mp he2 with h
        exact ⟨p.1, h⟩
      | ok u =>
        obtain ⟨evs, hevs, hall⟩ := ih (t ++ [PromEvent.appRelease p.1 toCh])
        refine ⟨PromEvent.appRelease p.1 toCh :: evs, ?_, ?_⟩
        · simp only [hr]
          rw [hevs]
          simp
        · intro e2 he2
          rcases List.mem_cons.mp he2 with h | h
          · exact ⟨p.1, h⟩
          · exact hall e2 h

theorem promoteLoop_ok_releases (env : PromoteEnv) (excluded : List String)
    (toCh : Channel) (apps : List (String × Application)) :
    ∀ t t2, promoteLoop env excluded toCh apps t = (t2, Except.ok ()) →
      ∀ p ∈ apps, elemStr excluded p.1 = false → p.2.source.isNone = false →
        env.releaseApp p.2 toCh = Except.ok () := by
  induction apps with
  | nil =>
    intro t t2 h p hp
    cases hp
  | cons q rest ih =>
    intro t t2 h p hp hex hsrc
    rcases List.mem_cons.mp hp with h1 | h2
    · subst h1
      by_cases hq : (elemStr excluded p.1 || p.2.source.isNone) = true
      · rw [hex, hsrc] at hq
        simp at hq
      · simp only [promoteLoop, if_neg hq] at h
        unfold tBind tCall at h
        cases hr : env.releaseApp p.2 toCh with
        | error e =>
          rw [hr] at h
          simp at h
        | ok u =>
          cases u
          rfl
    · by_cases hq : (elemStr excluded q.1 || q.2.source.isNone) = true
      · simp only [promoteLoop, if_pos hq] at h
        exact ih t t2 h p h2 hex hsrc
      · simp only [promoteLoop, if_neg hq] at h
        unfold tBind tCall at h
        cases hr : env.releaseApp q.2 toCh with
        | error e =>
          rw [hr] at h
          simp at h
        | ok u =>
          rw [hr] at h
          exact ih _ t2 h p h2 hex hsrc

/-! ## Claim theorems: C1, C2, C5 -/

/-- C1: Charm resolution decision policy. For every application and every
value of the build flag `B`: if the charm reference is present and (`B` is
false or the source is absent), the existing charm reference is used
unchanged and no build occurs (empty trace); if both charm reference and
source are absent, resolution fails fatally with no external call; if the
source is present and (`B` is true or the charm reference is absent), the
charm is built from source (the build arm runs). -/
theorem charm_resolution_table (env : DeployEnv) (bundlePath : String)
    (B : Bool) (name : String) (app : Application) :
    (∀ c, app.charm = some c → (B = false ∨ app.source = none) →
      resolveApp env bundlePath B name app [] = ([], Except.ok { app with charm := some c }))
    ∧ (app.charm = none → app.source = none →
      resolveApp env bundlePath B name app [] =
        ([], Except.error ("Application " ++ name ++ " has neither `charm` nor `source` set.")))
    ∧ (∀ s, app.source = some s → (B = true ∨ app.charm = none) →
      resolveApp env bundlePath B name app [] =
        buildBranch env bundlePath name app s []) := by
  obtain ⟨c0, s0, r0⟩ := app
  refine ⟨?_, ?_, ?_⟩
  · rintro c hc hBs
    cases hc
    rcases hBs with hB | hs
    · cases hB; cases s0 <;> simp [resolveApp, tPure]
    · cases hs; cases B <;> simp [resolveApp, tPure]
  · rintro hc hs
    cases hc; cases hs
    cases B <;> simp [resolveApp, tFail]
  · rintro s hs hBc
    cases hs
    rcases hBc with hB | hc
    · cases hB; cases c0 <;> simp [resolveApp]
    · cases hc; cases B <;> simp [resolveApp]

/-- C1 witness: concrete evaluations of all three arms of the table. -/
theorem charm_resolution_table_witness :
    resolveApp
      { charmBuildDir := "b", charmSourceDir := "s",
        loadCharm := fun _ => Except.error "no", buildCharm := fun _ _ => Except.ok () }
      "bundle.yaml" false "app"
      { charm := some "cs:app-1", source := some "./src", resources := [] } [] =
      ([], Except.ok { charm := some "cs:app-1", source := some "./src",
                       resources := ([] : List (String × String)) }) :=
  (charm_resolution_table
    { charmBuildDir := "b", charmSourceDir := "s",
      loadCharm := fun _ => Except.error "no", buildCharm := fun _ _ => Except.ok () }
    "bundle.yaml" false "app"
    { charm := some "cs:app-1", source := some "./src", resources := [] }).1
    "cs:app-1" rfl (Or.inl rfl)

/-- C2: Relation filtering after selection. A relation survives the filter
iff every endpoint, stripped of any interface suffix at the first `:`,
names a selected application; relations referencing an excluded
application are dropped (the filter is total, no error is possible). -/
theorem relation_filtering (relations : List (List String))
    (selected : List String) (rel : List String) :
    rel ∈ filterRelations relations selected ↔
      rel ∈ relations ∧ ∀ r ∈ rel, stripInterface r ∈ selected := by
  unfold filterRelations
  rw [List.mem_filter]
  constructor
  · rintro ⟨hm, hall⟩
    refine ⟨hm, ?_⟩
    intro r hr
    have := (List.all_eq_true.mp hall) r hr
    exact (elemStr_eq_true_iff selected (stripInterface r)).mp this
  · rintro ⟨hm, hall⟩
    refine ⟨hm, List.all_eq_true.mpr ?_⟩
    intro r hr
    exact (elemStr_eq_true_iff selected (stripInterface r)).mpr (hall r hr)

/-- C5: Publish eligibility. An application is in the publish set iff it
has both a charm reference and a source locator; applications with only
one or neither are excluded (the filter is total, no error is possible). -/
theorem publish_eligibility (apps : List (String × Application))
    (p : String × Application) :
    p ∈ publishEligible apps ↔
      p ∈ apps ∧ p.2.charm.isSome ∧ p.2.source.isSome :=
  mem_publishEligible_iff apps p

/-- C3 counterexample: with two selected applications and the external
removal command exiting with non-zero status 1 every time, both removals
are still invoked and the operation returns success. A non-zero exit
neither aborts the remaining removals nor makes `remove` return an error,
because the loop discards the exit status, so the claim as stated is
false. -/
theorem remove_nonzero_exit_counterexample :
    removeApps (fun _ => SpawnOutcome.exited 1) ["a", "b"] =
      (["a", "b"], Except.ok ()) := rfl

/-- C3 (amended): removal is invoked sequentially per selected application
in order. A spawn/wait I/O failure aborts the remaining removals and makes
the operation return an error; the exit status of the removal command,
zero or not, is ignored, so when every spawn succeeds the whole selection
is processed and the operation returns success. -/
theorem remove_failure_semantics (runRemove : String → SpawnOutcome)
    (names : List String) :
    ((∀ n ∈ names, (runRemove n).isExit = true) →
      removeApps runRemove names = (names, Except.ok ()))
    ∧ (∀ pre n post m, names = pre ++ n :: post →
        (∀ x ∈ pre, (runRemove x).isExit = true) →
        runRemove n = SpawnOutcome.ioError m →
        removeApps runRemove names = (pre ++ [n], Except.error m)) := by
  constructor
  · exact removeApps_all_exit runRemove names
  · intro pre n post m hnames hpre hn
    subst hnames
    exact removeApps_first_ioError runRemove pre n post m hpre hn

/-- C3 witness: three selected applications, spawn fails on the second;
only the first two are invoked and the operation returns the error. -/
theorem remove_failure_semantics_witness :
    removeApps runRemW ["a", "b", "c"] = (["a", "b"], Except.error "boom") :=
  (remove_failure_semantics runRemW ["a", "b", "c"]).2 ["a"] "b" ["c"] "boom"
    rfl (by decide) rfl

/-- C8: Resource merge precedence. Whenever per-application resolution
succeeds, every resource name the application already declared keeps its
declared value: a build-derived upstream source is inserted only for names
not already present. -/
theorem resource_merge_precedence (env : DeployEnv) (bundlePath : String)
    (B : Bool) (name : String) (app : Application)
    (t t2 : List DeployEvent) (app2 : Application)
    (h : resolveApp env bundlePath B name app t = (t2, Except.ok app2))
    (k v : String) (hk : assocLookup app.resources k = some v) :
    assocLookup app2.resources k = some v := by
  obtain ⟨c0, s0, r0⟩ := app
  have hbuild : ∀ s : String,
      buildBranch env bundlePath name ⟨c0, s0, r0⟩ s t = (t2, Except.ok app2) →
      assocLookup app2.resources k = some v := by
    intro s hb
    cases hlc : env.loadCharm (charmPath env.charmSourceDir bundlePath s) with
    | error e =>
      simp [buildBranch, tBind, tCall, tPure, hlc] at hb
    | ok charm =>
      cases hbc : env.buildCharm charm name with
      | error e =>
        simp [buildBranch, tBind, tCall, tPure, hlc, hbc] at hb
      | ok u =>
        simp only [buildBranch, tBind, tCall, tPure, hlc, hbc] at hb
        obtain ⟨-, happ⟩ := Prod.mk.injEq .. ▸ hb
        cases happ
        exact assocLookup_mergeResources_of_some charm.metadata.resources r0 k v hk
  cases B with
  | false =>
    cases c0 with
    | some c =>
      simp only [resolveApp, tPure] at h
      obtain ⟨-, happ⟩ := Prod.mk.injEq .. ▸ h
      cases happ
      exact hk
    | none =>
      cases s0 with
      | none => simp [resolveApp, tFail] at h
      | some s => exact hbuild s h
  | true =>
    cases s0 with
    | some s =>
      cases c0 with
      | some c => exact hbuild s h
      | none => exact hbuild s h
    | none =>
      cases c0 with
      | some c =>
        simp only [resolveApp, tPure] at h
        obtain ⟨-, happ⟩ := Prod.mk.injEq .. ▸ h
        cases happ
        exact hk
      | none => simp [resolveApp, tFail] at h

/-- C8 witness: `appW` declares `X → "explicit"`, the build supplies
`X → "built"` and `Y → "builtY"`; after resolution `X` still maps to
`"explicit"`. -/
theorem resource_merge_precedence_witness :
    assocLookup appResolvedW.resources "X" = some "explicit" :=
  resource_merge_precedence envW "bundle.yaml" true "app" appW
    [] [DeployEvent.loadCharm "/sources/appc", DeployEvent.buildCharm "app"]
    appResolvedW rfl "X" "explicit" rfl

/-- C9: Parallel fan-out result shape. Whenever every per-application
resolution succeeds, the merged result map has exactly one entry per
dispatched application: its key list equals the selected application name
list. The merge is a pure function of the per-task results, so the shape
is independent of task completion order. -/
theorem fanout_result_shape (env : DeployEnv) (bundlePath : String)
    (B : Bool) (apps out : List (String × Application))
    (h : resolveAll env bundlePath B apps = Except.ok out) :
    out.map Prod.fst = apps.map Prod.fst := by
  induction apps generalizing out with
  | nil =>
    simp only [resolveAll] at h
    cases h
    rfl
  | cons p rest ih =>
    simp only [resolveAll] at h
    cases hr : runTask env bundlePath B p with
    | error e =>
      rw [hr] at h
      simp at h
    | ok r =>
      rw [hr] at h
      cases hrs : resolveAll env bundlePath B rest with
      | error e =>
        rw [hrs] at h
        simp at h
      | ok rs =>
        rw [hrs] at h
        cases h
        simp only [List.map_cons]
        rw [runTask_ok_fst env bundlePath B p r hr, ih rs hrs]

/-- C9 witness: one dispatched application, successful resolution; the
result map holds exactly the key `"app"`. -/
theorem fanout_result_shape_witness :
    ([("app", appResolvedW)] : List (String × Application)).map Prod.fst =
      ([("app", appW)] : List (String × Application)).map Prod.fst :=
  fanout_result_shape envW "bundle.yaml" true [("app", appW)]
    [("app", appResolvedW)] rfl

/-- C4: Publish precondition. With `prune` set and `serial` not set, the
publish flow fails with the configuration error before any work: the
emitted trace is empty, so the bundle is not loaded, no store
authentication is attempted, and no build or push call occurs. -/
theorem publish_precondition (env : PublishEnv) (c : PublishConfig)
    (hp : c.prune = true) (hs : c.serial = false) :
    publishModel env c =
      ([], Except.error
        (PubErr.fail "To use --prune, you must set the --serial flag as well.")) := by
  unfold publishModel
  rw [hp, hs]
  rfl

/-- C4 witness: the concrete invalid configuration fails immediately with
an empty trace. -/
theorem publish_precondition_witness :
    publishModel pubEnvW
      { bundle := "bundle.yaml", cs_url := "cs:~me/bundle",
        serial := false, prune := true } =
      ([], Except.error
        (PubErr.fail "To use --prune, you must set the --serial flag as well.")) :=
  publish_precondition pubEnvW
    { bundle := "bundle.yaml", cs_url := "cs:~me/bundle",
      serial := false, prune := true } rfl rfl

/-- C10: Panic freedom of the publish handler. Every publish-eligible
application has both its charm reference and its source locator present,
so the handler's two `expect` extractions never panic (no error of the
handler is a panic), and whenever the per-application phase - serial
`tMapM` or the parallel collection - returns the revision list, every
returned name is a key of the loaded bundle's application map, so the
revision-pinning lookup succeeds without the `App must exist!` panic. -/
theorem publish_no_panic (env : PublishEnv) (path : String) (prune : Bool)
    (apps : List (String × Application)) :
    (∀ p ∈ publishEligible apps, p.2.charm.isSome = true ∧ p.2.source.isSome = true)
    ∧ (∀ p ∈ publishEligible apps, ∀ t t2 e,
        publishHandlerM env path prune p t = (t2, Except.error e) →
        ∀ m, e ≠ PubErr.panic m)
    ∧ (∀ t t2 revs,
        tMapM (publishHandlerM env path prune) (publishEligible apps) t =
          (t2, Except.ok revs) →
        ∃ out, pinRevisions apps revs = Except.ok out)
    ∧ (∀ t t2 revs,
        parCollect (fun p => publishHandlerM env path prune p [])
            (publishEligible apps) t = (t2, Except.ok revs) →
        ∃ out, pinRevisions apps revs = Except.ok out) := by
  have helig : ∀ p ∈ publishEligible apps,
      p.2.charm.isSome = true ∧ p.2.source.isSome = true := by
    intro p hp
    obtain ⟨-, hc, hs⟩ := (mem_publishEligible_iff apps p).mp hp
    exact ⟨hc, hs⟩
  have hsub : ∀ q ∈ publishEligible apps, q ∈ apps := by
    intro q hq
    exact ((mem_publishEligible_iff apps q).mp hq).1
  refine ⟨helig, ?_, ?_, ?_⟩
  · intro p hp t t2 e h m
    obtain ⟨hc, hs⟩ := helig p hp
    exact publishHandlerM_no_panic_aux env path prune p hc hs t t2 e h m
  · intro t t2 revs h
    have hkeys := tMapM_handler_keys env path prune (publishEligible apps) t t2 revs h
    exact pinRevisions_ok revs apps
      (revs_keys_lookup apps (publishEligible apps) revs hkeys hsub)
  · intro t t2 revs h
    unfold parCollect at h
    simp only [Prod.mk.injEq] at h
    obtain ⟨-, h2⟩ := h
    have hkeys := parCollect_handler_keys env path prune (publishEligible apps) revs h2
    exact pinRevisions_ok revs apps
      (revs_keys_lookup apps (publishEligible apps) revs hkeys hsub)

/-- C10 witness: a concrete serial run over one eligible application
returns one revision, and pinning it back into the bundle copy succeeds. -/
theorem publish_no_panic_witness :
    ∃ out, pinRevisions [("app", appBothW)] [("app", "cs:app-42")] =
      Except.ok out :=
  (publish_no_panic pubEnvW "bundle.yaml" false [("app", appBothW)]).2.2.1
    [] [PubEvent.loadCharm "/sources/appc", PubEvent.build "app",
        PubEvent.push "app", PubEvent.promoteRev "cs:app-42"]
    [("app", "cs:app-42")] rfl

/-- C6: Promotion skip rule. When every release call succeeds, phase 1
releases exactly the applications that are neither in the exclusion list
nor without a source locator, in bundle order; equivalently, a release
event for name `n` is emitted iff some application named `n` is not
excluded and has a source locator. An application without a source
locator is never promoted even when not excluded. -/
theorem promotion_skip_rule (env : PromoteEnv) (excluded : List String)
    (toCh : Channel) (apps : List (String × Application)) (t : List PromEvent)
    (hok : ∀ a, env.releaseApp a toCh = Except.ok ()) :
    promoteLoop env excluded toCh apps t =
      (t ++ (apps.filter (fun p => !(elemStr excluded p.1 || p.2.source.isNone))).map
          (fun p => PromEvent.appRelease p.1 toCh),
        Except.ok ())
    ∧ ∀ n, (PromEvent.appRelease n toCh ∈ (promoteLoop env excluded toCh apps t).1 ↔
        PromEvent.appRelease n toCh ∈ t ∨
          ∃ a, (n, a) ∈ apps ∧ elemStr excluded n = false ∧
            a.source.isNone = false) := by
  have hmain : ∀ t0 : List PromEvent, promoteLoop env excluded toCh apps t0 =
      (t0 ++ (apps.filter (fun p => !(elemStr excluded p.1 || p.2.source.isNone))).map
          (fun p => PromEvent.appRelease p.1 toCh),
        Except.ok ()) := by
    induction apps with
    | nil =>
      intro t0
      simp [promoteLoop, tPure]
    | cons p rest ih =>
      intro t0
      by_cases hp : (elemStr excluded p.1 || p.2.source.isNone) = true
      · simp only [promoteLoop, if_pos hp]
        rw [ih t0]
        have hor := Bool.or_eq_true (elemStr excluded p.1) p.2.source.isNone ▸ hp
        rcases hor with hx | hy
        · simp [List.filter_cons, hx]
        · have hnone : p.2.source = none := Option.isNone_iff_eq_none.mp hy
          simp [List.filter_cons, hnone]
      · simp only [promoteLoop, if_neg hp]
        simp only [tBind, tCall, hok p.2]
        rw [ih (t0 ++ [PromEvent.appRelease p.1 toCh])]
        have hp2 : (elemStr excluded p.1 || p.2.source.isNone) = false :=
          Bool.not_eq_true _ ▸ hp
        obtain ⟨hx, hy⟩ := Bool.or_eq_false_iff.mp hp2
        have hsome : p.2.source.isSome = true := by
          cases hsrc2 : p.2.source with
          | none =>
            rw [hsrc2] at hy
            simp at hy
          | some a2 => rfl
        simp [List.filter_cons, hx, hsome, List.append_assoc]
  refine ⟨hmain t, fun n => ?_⟩
  rw [hmain t]
  simp only [List.mem_append, List.mem_map, List.mem_filter]
  constructor
  · rintro (h1 | ⟨q, ⟨hq, hcond⟩, heq⟩)
    · exact Or.inl h1
    · injection heq with hq1 hq2
      subst hq1
      rw [Bool.not_eq_true', Bool.or_eq_false_iff] at hcond
      exact Or.inr ⟨q.2, hq, hcond.1, hcond.2⟩
  · rintro (h1 | ⟨a, ha, hex, hsrc⟩)
    · exact Or.inl h1
    · refine Or.inr ⟨(n, a), ⟨ha, ?_⟩, rfl⟩
      rw [Bool.not_eq_true', Bool.or_eq_false_iff]
      exact ⟨hex, hsrc⟩

/-- C6 witness: the spec example. Exclusion list `["web"]` over
applications `web` and `db`, both with a source locator: only `db` is
promoted. -/
theorem promotion_skip_rule_witness :
    promoteLoop promEnvW ["web"] Channel.stable
        [("web", appSrcW), ("db", appSrcW)] [] =
      ([PromEvent.appRelease "db" Channel.stable], Except.ok ()) :=
  (promotion_skip_rule promEnvW ["web"] Channel.stable
      [("web", appSrcW), ("db", appSrcW)] [] (fun _ => rfl)).1

/-- C7: Promotion two-phase ordering. With the store load succeeding:
if the bundle-release event was emitted at all, then every in-scope
phase-1 application release succeeded; a phase-1 failure makes the whole
operation fail with that error, with no bundle-release event emitted; and
when phase 1 succeeds, the bundle itself, identified as
`<bundle-name>-<revision>`, is released right after phase 1. -/
theorem promotion_two_phase (env : PromoteEnv) (c : PromoteConfig)
    (rev : String) (bundle : Bundle)
    (hload : env.loadFromStore c.bundle c.from_ = Except.ok (rev, bundle)) :
    ((∃ url ch, PromEvent.bundleRelease url ch ∈ (promoteModel env c).1) →
      ∀ p ∈ bundle.applications, elemStr c.excluded p.1 = false →
        p.2.source.isNone = false → env.releaseApp p.2 c.toCh = Except.ok ())
    ∧ (∀ t2 e, promoteLoop env c.excluded c.toCh bundle.applications [] =
          (t2, Except.error e) →
        promoteModel env c = (t2, Except.error e) ∧
        ∀ url ch, PromEvent.bundleRelease url ch ∉ t2)
    ∧ (∀ t2, promoteLoop env c.excluded c.toCh bundle.applications [] =
          (t2, Except.ok ()) →
        (promoteModel env c).1 =
          t2 ++ [PromEvent.bundleRelease (c.bundle ++ "-" ++ rev) c.toCh]) := by
  have hnob : ∀ t2 e, promoteLoop env c.excluded c.toCh bundle.applications [] =
      (t2, Except.error e) → ∀ url ch, PromEvent.bundleRelease url ch ∉ t2 := by
    intro t2 e hloop url ch hmem
    obtain ⟨evs, hevs, hall⟩ :=
      promoteLoop_events env c.excluded c.toCh bundle.applications []
    rw [hloop] at hevs
    simp only [List.nil_append] at hevs
    rw [hevs] at hmem
    obtain ⟨n2, hn2⟩ := hall _ hmem
    simp at hn2
  refine ⟨?_, ?_, ?_⟩
  · rintro ⟨url, ch, hmem⟩ p hp hex hsrc
    rcases hloop : promoteLoop env c.excluded c.toCh bundle.applications []
      with ⟨t3, r⟩
    cases r with
    | ok u =>
      cases u
      exact promoteLoop_ok_releases env c.excluded c.toCh bundle.applications
        [] t3 hloop p hp hex hsrc
    | error e =>
      have hpm : (promoteModel env c).1 = t3 := by
        simp only [promoteModel, tOfExcept, tBind, hload, hloop]
      rw [hpm] at hmem
      exact absurd hmem (hnob t3 e hloop url ch)
  · intro t2 e hloop
    refine ⟨?_, hnob t2 e hloop⟩
    simp only [promoteModel, tOfExcept, tBind, hload, hloop]
  · intro t2 hloop
    simp only [promoteModel, tOfExcept, tBind, hload, hloop, tCall]

/-- C7 witness: the concrete promotion run releases `db` in phase 1 and
then the bundle `mybundle-7` in phase 2. -/
theorem promotion_two_phase_witness :
    (promoteModel promEnvW promCfgW).1 =
      [PromEvent.appRelease "db" Channel.stable] ++
        [PromEvent.bundleRelease ("mybundle" ++ "-" ++ "7") Channel.stable] :=
  (promotion_two_phase promEnvW promCfgW "7" promBundleW rfl).2.2
    [PromEvent.appRelease "db" Channel.stable] rfl

end JujuBundle
